import Mathlib

/-!
Shallow embedding of the cutekit command line front end (cutekit cmds.py):
the command registry, the dispatcher and the recursive external dependency
fetcher, together with theorems checking the specified behaviour.
-/

namespace Cutekit

/-- Command descriptor, mirroring class Cmd in cmds.py. The callback is
modelled as an abstract numeric handler identifier; isPlugin defaults to
false at construction, exactly as in the source class. -/
structure Cmd where
  shortName : Option String
  longName : String
  helpText : String
  callback : Nat
  isPlugin : Bool
deriving DecidableEq, Repr

/-- Constructor used for builtin commands: the Python Cmd initializer never
touches isPlugin, so it keeps the class level default false. -/
def Cmd.mkBuiltin (shortName : Option String) (longName helpText : String)
    (callback : Nat) : Cmd :=
  ⟨shortName, longName, helpText, callback, false⟩

/-- The builtin command registry of cmds.py, in source registration order:
each cmds += [Cmd(...)] line of the module body, top to bottom. -/
def cmds : List Cmd := [
  Cmd.mkBuiltin (some "r") "run" "Run the target" 0,
  Cmd.mkBuiltin (some "t") "test" "Run all test targets" 1,
  Cmd.mkBuiltin (some "d") "debug" "Debug the target" 2,
  Cmd.mkBuiltin (some "b") "build" "Build the target" 3,
  Cmd.mkBuiltin (some "l") "list" "List the targets" 4,
  Cmd.mkBuiltin (some "c") "clean" "Clean the build directory" 5,
  Cmd.mkBuiltin (some "n") "nuke" "Clean the build directory and cache" 6,
  Cmd.mkBuiltin (some "h") "help" "Show this help message" 7,
  Cmd.mkBuiltin (some "v") "version" "Show current version" 8,
  Cmd.mkBuiltin (some "g") "graph" "Show dependency graph" 9,
  Cmd.mkBuiltin (some "i") "install" "Install all the external packages" 10,
  Cmd.mkBuiltin (some "I") "init" "Initialize a new project" 11]

/-- Modelled from the spec: the argument cursor (cutekit args.Args is not
part of src), reduced to the list of remaining tokens; consumeArg removes
and returns the next token when one remains. -/
structure Args where
  tokens : List String
deriving DecidableEq, Repr

def Args.consumeArg : Args → Option (String × Args)
  | ⟨[]⟩ => none
  | ⟨t :: rest⟩ => some (t, ⟨rest⟩)

/-- Name test used by exec: the token equals the short name (never true when
the short name is absent) or the long name. -/
def nameMatch (n : String) (c : Cmd) : Bool :=
  c.shortName == some n || c.longName == n

/-- Outcome of dispatching: a handler invoked with the remaining cursor, a
missing command token, or an unknown command error naming the token. -/
inductive ExecResult where
  | invoked (c : Cmd) (rest : Args)
  | noCommand
  | unknownCommand (name : String)
deriving DecidableEq, Repr

/-- Shallow embedding of exec from cmds.py: consume one token as the command
name, then scan the registry in list order and invoke the first command
whose short or long name equals the token, handing it the remaining cursor;
fail with unknownCommand when no command matches. -/
def exec (registry : List Cmd) (args : Args) : ExecResult :=
  match args.consumeArg with
  | none => .noCommand
  | some (cmd, rest) =>
    match registry.find? (nameMatch cmd) with
    | some c => .invoked c rest
    | none => .unknownCommand cmd

/-- Sort key of the registry, from the Python key c.shortName or c.longName:
the short name when present and nonempty (Python falsiness), else the long
name. -/
def sortKey (c : Cmd) : String :=
  match c.shortName with
  | none => c.longName
  | some s => if s = "" then c.longName else s

/-- Lexicographic code point comparison on char lists, which is how Python
compares strings. -/
def keyLE : List Char → List Char → Bool
  | [], _ => true
  | _ :: _, [] => false
  | a :: as, b :: bs =>
    if a.toNat < b.toNat then true
    else if b.toNat < a.toNat then false
    else keyLE as bs

/-- Registry ordering used by the sort in append. -/
def cmdLE (a b : Cmd) : Bool := keyLE (sortKey a).data (sortKey b).data

/-- Mutation performed by append on the registered command: the plugin flag
is set to true. -/
def setPlugin (c : Cmd) : Cmd :=
  ⟨c.shortName, c.longName, c.helpText, c.callback, true⟩

/-- Shallow embedding of append from cmds.py: set the plugin flag on the new
command, add it at the end of the registry, and sort the whole registry by
sortKey (Python list.sort is a stable sort, modelled by mergeSort). -/
def append (registry : List Cmd) (c : Cmd) : List Cmd :=
  (registry ++ [setPlugin c]).mergeSort cmdLE

/-- Decidable check that a registry is sorted by sortKey. -/
def sortedByKey : List Cmd → Bool
  | [] => true
  | [_] => true
  | a :: b :: t => cmdLE a b && sortedByKey (b :: t)

/-- External dependency reference: remote git URL and pinned tag, mirroring
model.Extern as used by grabExtern (fields ext.git and ext.tag). -/
structure Extern where
  git : String
  tag : String
deriving DecidableEq, Repr

/-- Observable event emitted by the fetcher, in emission order: the Skipping
line, a successful git clone, or a failed git clone. -/
inductive Event where
  | skipped (key : String)
  | cloned (key git tag : String)
  | cloneFailed (key : String)
deriving DecidableEq, Repr

/-- Disk state under the external dependency root EXTERN_DIR: which
subdirectories exist, keyed by dependency key, plus the log of fetcher
events so far. -/
structure FsState where
  installed : List String
  events : List Event
deriving DecidableEq, Repr

/-- Modelled from the spec: the version control clone primitive together
with manifest loading (shell.popen git clone and context.loadProject are not
part of src). clone git tag is none when the clone fails; it is some m when
the clone succeeds and creates the target directory, where m is some list of
nested dependencies when the cloned directory holds a project.json manifest
and none otherwise. -/
structure World where
  clone : String → String → Option (Option (List (String × Extern)))

/-- Disk effect of skipping an entry: only the Skipping report is emitted. -/
def FsState.skip (s : FsState) (k : String) : FsState :=
  ⟨s.installed, s.events ++ [Event.skipped k]⟩

/-- Disk effect of a successful clone: the target directory now exists and
the clone is logged. -/
def FsState.cloneOk (s : FsState) (k : String) (e : Extern) : FsState :=
  ⟨s.installed ++ [k], s.events ++ [Event.cloned k e.git e.tag]⟩

/-- Disk effect of a failed clone: nothing is created, the failure is
logged. -/
def FsState.cloneFail (s : FsState) (k : String) : FsState :=
  ⟨s.installed, s.events ++ [Event.cloneFailed k]⟩

/-- Result of a fetcher run: normal completion, abort on a failed clone, or
fuel exhaustion of the model (the Python source recurses without fuel). -/
inductive FetchResult where
  | ok (s : FsState)
  | fail (s : FsState)
  | outOfFuel
deriving DecidableEq, Repr

/-- Shallow embedding of grabExtern from cmds.py. Fuel makes the general
recursion structural: every recursive call runs at one less fuel and a run
that exhausts fuel answers outOfFuel; any sufficiently large fuel yields the
behaviour of the source. For each entry in declared order: when the target
directory already exists the entry is skipped entirely; otherwise the
dependency is cloned (aborting the whole run on failure), and when the
cloned directory holds a project.json manifest the fetcher first recurses
into its dependency map, then continues with the remaining siblings. -/
def grabExtern (w : World) : Nat → List (String × Extern) → FsState → FetchResult
  | 0, _, _ => .outOfFuel
  | _ + 1, [], s => .ok s
  | n + 1, (extSpec, ext) :: rest, s =>
    if extSpec ∈ s.installed then
      grabExtern w n rest (s.skip extSpec)
    else
      match w.clone ext.git ext.tag with
      | none => .fail (s.cloneFail extSpec)
      | some none => grabExtern w n rest (s.cloneOk extSpec ext)
      | some (some nested) =>
        match grabExtern w n nested (s.cloneOk extSpec ext) with
        | .ok s2 => grabExtern w n rest s2
        | r => r

/-- Key of a clone event, none for the other events. -/
def clonedKey : Event → Option String
  | .cloned k _ _ => some k
  | _ => none

/-- Keys of a dependency map, in declared order. -/
def keysOf (deps : List (String × Extern)) : List String :=
  deps.map Prod.fst

/-- Final disk state of a completed run (normal or aborted), none when the
model ran out of fuel. -/
def resultState : FetchResult → Option FsState
  | .ok s => some s
  | .fail s => some s
  | .outOfFuel => none

/-- Number of keys of K whose directory does not exist yet. -/
def countNew (K : List String) (s : FsState) : Nat :=
  (K.filter (fun k => decide (k ∉ s.installed))).length

/-- Concrete dependency references for the scenario worlds. -/
def extA : Extern := ⟨"gitA", "v1"⟩

def extB : Extern := ⟨"gitB", "v2"⟩

def extC : Extern := ⟨"gitC", "v3"⟩

/-- Scenario world: the repository of A declares the nested dependency C,
every clone succeeds, B and C carry no manifest. -/
def wABC : World :=
  ⟨fun g _ => if g = "gitA" then some (some [("C", extC)]) else some none⟩

/-- Scenario world: cloning from gitB fails, every other clone succeeds with
no nested manifest. -/
def wFailB : World :=
  ⟨fun g _ => if g = "gitB" then none else some none⟩

/-- Scenario world with a dependency cycle: the repository of A declares B
and the repository of B declares A. -/
def wCyc : World :=
  ⟨fun g _ =>
    if g = "gitA" then some (some [("B", extB)])
    else if g = "gitB" then some (some [("A", extA)])
    else some none⟩

theorem keyLE_total : ∀ a b : List Char, (keyLE a b || keyLE b a) = true := by
  intro a
  induction a with
  | nil => intro b; simp [keyLE]
  | cons x xs ih =>
    intro b
    cases b with
    | nil => simp [keyLE]
    | cons y ys =>
      by_cases h1 : x.toNat < y.toNat
      · simp [keyLE, h1]
      · by_cases h2 : y.toNat < x.toNat
        · simp [keyLE, h1, h2]
        · simpa [keyLE, h1, h2] using ih ys

theorem keyLE_trans :
    ∀ a b c : List Char, keyLE a b = true → keyLE b c = true → keyLE a c = true := by
  intro a
  induction a with
  | nil => intro b c _ _; simp [keyLE]
  | cons x xs ih =>
    intro b c hab hbc
    cases b with
    | nil => simp [keyLE] at hab
    | cons y ys =>
      cases c with
      | nil => simp [keyLE] at hbc
      | cons z zs =>
        by_cases hxy : x.toNat < y.toNat
        · by_cases hyz : y.toNat < z.toNat
          · simp [keyLE, Nat.lt_trans hxy hyz]
          · by_cases hzy : z.toNat < y.toNat
            · simp [keyLE, hyz, hzy] at hbc
            · have hless : x.toNat < z.toNat := by omega
              simp [keyLE, hless]
        · by_cases hyx : y.toNat < x.toNat
          · simp [keyLE, hxy, hyx] at hab
          · have hxyeq : x.toNat = y.toNat := by omega
            by_cases hyz : y.toNat < z.toNat
            · have hless : x.toNat < z.toNat := by omega
              simp [keyLE, hless]
            · by_cases hzy : z.toNat < y.toNat
              · simp [keyLE, hyz, hzy] at hbc
              · have h1 : ¬ x.toNat < z.toNat := by omega
                have h2 : ¬ z.toNat < x.toNat := by omega
                have hab2 : keyLE xs ys = true := by simpa [keyLE, hxy, hyx] using hab
                have hbc2 : keyLE ys zs = true := by simpa [keyLE, hyz, hzy] using hbc
                simpa [keyLE, h1, h2] using ih ys zs hab2 hbc2

theorem cmdLE_trans : ∀ a b c : Cmd, cmdLE a b = true → cmdLE b c = true → cmdLE a c = true :=
  fun a b c hab hbc => keyLE_trans _ _ _ hab hbc

theorem cmdLE_total : ∀ a b : Cmd, (cmdLE a b || cmdLE b a) = true :=
  fun a b => keyLE_total _ _

theorem sortedByKey_of_pairwise :
    ∀ l : List Cmd, List.Pairwise (fun a b => cmdLE a b = true) l → sortedByKey l = true := by
  intro l h
  induction h with
  | nil => rfl
  | @cons a l ha _ ih =>
    cases l with
    | nil => rfl
    | cons b t =>
      have h1 : cmdLE a b = true := ha b (List.mem_cons_self b t)
      simp [sortedByKey, h1, ih]

/-- C7 counterexample: the builtin registry as constructed at startup is in
registration order, which is not sorted by sortKey (test comes right after
run, debug right after test, init last), so the display order invariant does
not hold before the first extension registration. -/
theorem cmds_not_sorted : sortedByKey cmds = false := by decide

/-- C7 amended: every registry produced by append is sorted by short name,
falling back to long name; the builtin registry built at startup is in
registration order, not sorted, so the invariant holds only from the first
append on, append re-sorting the full collection each time. -/
theorem append_sorted (registry : List Cmd) (c : Cmd) :
    sortedByKey (append registry c) = true :=
  sortedByKey_of_pairwise _
    (List.sorted_mergeSort cmdLE_trans cmdLE_total (registry ++ [setPlugin c]))

/-- C6: append always registers the command with the plugin flag set to
true, and every builtin command in the startup registry carries the plugin
flag false. -/
theorem append_plugin_flag :
    (∀ (registry : List Cmd) (c : Cmd),
      setPlugin c ∈ append registry c ∧ (setPlugin c).isPlugin = true) ∧
    (∀ c ∈ cmds, c.isPlugin = false) := by
  refine ⟨fun registry c => ⟨?_, rfl⟩, by decide⟩
  rw [append, List.mem_mergeSort]
  exact List.mem_append_right _ (List.mem_singleton.mpr rfl)

/-- Witness for C6 at a concrete registry and command. -/
theorem append_plugin_flag_witness :
    (setPlugin (Cmd.mkBuiltin (some "x") "extra" "An extra command" 12) ∈
      append cmds (Cmd.mkBuiltin (some "x") "extra" "An extra command" 12)) ∧
    (Cmd.mkBuiltin (some "r") "run" "Run the target" 0).isPlugin = false :=
  ⟨(append_plugin_flag.1 cmds (Cmd.mkBuiltin (some "x") "extra" "An extra command" 12)).1,
   append_plugin_flag.2 (Cmd.mkBuiltin (some "r") "run" "Run the target" 0) (by decide)⟩

/-- C1: dispatching the token n invokes a handler exactly when some
registered command has n as its short or its long name; the dispatcher scans
the registry in list order, invokes the first match with the remaining
cursor, and otherwise fails with the unknown command error naming n. -/
theorem exec_dispatch (registry : List Cmd) (n : String) (rest : List String) :
    ((∃ c ∈ registry, nameMatch n c = true) →
      ∃ pre c post, registry = pre ++ c :: post ∧ nameMatch n c = true ∧
        (∀ c2 ∈ pre, nameMatch n c2 = false) ∧
        exec registry ⟨n :: rest⟩ = .invoked c ⟨rest⟩) ∧
    ((∀ c ∈ registry, nameMatch n c = false) →
      exec registry ⟨n :: rest⟩ = .unknownCommand n) := by
  induction registry with
  | nil =>
    refine ⟨?_, fun _ => rfl⟩
    rintro ⟨c, hc, -⟩
    exact absurd hc (List.not_mem_nil c)
  | cons a l ih =>
    by_cases ha : nameMatch n a = true
    · refine ⟨fun _ => ⟨[], a, l, rfl, ha, by simp, ?_⟩,
        fun hall => absurd (hall a (List.mem_cons_self a l)) (by simp [ha])⟩
      simp [exec, Args.consumeArg, List.find?_cons_of_pos, ha]
    · have hfa : nameMatch n a = false := by simpa using ha
      have hstep : exec (a :: l) ⟨n :: rest⟩ = exec l ⟨n :: rest⟩ := by
        simp [exec, Args.consumeArg, List.find?_cons_of_neg, hfa]
      refine ⟨?_, ?_⟩
      · rintro ⟨c, hc, hmc⟩
        have hcl : c ∈ l := by
          rcases List.mem_cons.mp hc with h | h
          · exact absurd hmc (by simp [h, hfa])
          · exact h
        obtain ⟨pre, c1, post, hsplit, hm1, hpre, hexec⟩ := ih.1 ⟨c, hcl, hmc⟩
        refine ⟨a :: pre, c1, post, by simp [hsplit], hm1, ?_, by rw [hstep]; exact hexec⟩
        intro c2 hc2
        rcases List.mem_cons.mp hc2 with h | h
        · simpa [h] using hfa
        · exact hpre c2 h
      · intro hall
        rw [hstep]
        exact ih.2 fun c hc => hall c (List.mem_cons_of_mem a hc)

/-- Witness for C1: the token build invokes the builtin build command with
the remaining cursor, and an unknown token fails naming it. -/
theorem exec_dispatch_witness :
    (∃ pre c post, cmds = pre ++ c :: post ∧ nameMatch "build" c = true ∧
      (∀ c2 ∈ pre, nameMatch "build" c2 = false) ∧
      exec cmds ⟨["build", "x"]⟩ = .invoked c ⟨["x"]⟩) ∧
    exec cmds ⟨["wrong"]⟩ = .unknownCommand "wrong" :=
  ⟨(exec_dispatch cmds "build" ["x"]).1
      ⟨Cmd.mkBuiltin (some "b") "build" "Build the target" 3, by decide, by decide⟩,
   (exec_dispatch cmds "wrong" []).2 (by decide)⟩

/-- Relation between the disk states before and after a fetcher run: the
event log is extended, the set of directories grows by exactly the keys of
the new clone events, and freedom from duplicate directories is
preserved. -/
def stepsTo (s s2 : FsState) : Prop :=
  ∃ es, s2.events = s.events ++ es ∧
    s2.installed = s.installed ++ es.filterMap clonedKey ∧
    (s.installed.Nodup → s2.installed.Nodup)

theorem stepsTo_refl (s : FsState) : stepsTo s s :=
  ⟨[], by simp, by simp, id⟩

theorem stepsTo_trans {s1 s2 s3 : FsState} (h1 : stepsTo s1 s2) (h2 : stepsTo s2 s3) :
    stepsTo s1 s3 := by
  obtain ⟨es1, he1, hi1, hn1⟩ := h1
  obtain ⟨es2, he2, hi2, hn2⟩ := h2
  exact ⟨es1 ++ es2, by simp [he2, he1], by simp [hi2, hi1, List.filterMap_append],
    fun h => hn2 (hn1 h)⟩

theorem stepsTo_skip (s : FsState) (k : String) : stepsTo s (s.skip k) :=
  ⟨[Event.skipped k], rfl, by simp [FsState.skip, clonedKey], fun h => h⟩

theorem stepsTo_cloneFail (s : FsState) (k : String) : stepsTo s (s.cloneFail k) :=
  ⟨[Event.cloneFailed k], rfl, by simp [FsState.cloneFail, clonedKey], fun h => h⟩

theorem stepsTo_cloneOk (s : FsState) (k : String) (e : Extern) (h : k ∉ s.installed) :
    stepsTo s (s.cloneOk k e) := by
  refine ⟨[Event.cloned k e.git e.tag], rfl, by simp [FsState.cloneOk, clonedKey], ?_⟩
  intro hn
  exact hn.append (List.nodup_singleton k) (by simpa using h)

theorem stepsTo_installed_subset {s s2 : FsState} (h : stepsTo s s2) :
    ∀ k ∈ s.installed, k ∈ s2.installed := by
  obtain ⟨es, -, hi, -⟩ := h
  intro k hk
  rw [hi]
  exact List.mem_append_left _ hk

/-- Every completed fetcher run, normal or aborted, relates its initial and
final disk states by stepsTo. -/
theorem grabExtern_stepsTo (w : World) :
    ∀ (fuel : Nat) (deps : List (String × Extern)) (s s2 : FsState),
      resultState (grabExtern w fuel deps s) = some s2 → stepsTo s s2 := by
  intro fuel
  induction fuel with
  | zero =>
    intro deps s s2 h
    simp [grabExtern, resultState] at h
  | succ n ih =>
    intro deps s s2 h
    match deps with
    | [] =>
      simp [grabExtern, resultState] at h
      rw [← h]
      exact stepsTo_refl s
    | (k, e) :: rest =>
      by_cases hk : k ∈ s.installed
      · rw [grabExtern, if_pos hk] at h
        exact stepsTo_trans (stepsTo_skip s k) (ih rest (s.skip k) s2 h)
      · rw [grabExtern, if_neg hk] at h
        cases hc : w.clone e.git e.tag with
        | none =>
          simp only [hc] at h
          simp [resultState] at h
          rw [← h]
          exact stepsTo_cloneFail s k
        | some mf =>
          simp only [hc] at h
          cases mf with
          | none =>
            exact stepsTo_trans (stepsTo_cloneOk s k e hk)
              (ih rest (s.cloneOk k e) s2 h)
          | some nested =>
            cases hres : grabExtern w n nested (s.cloneOk k e) with
            | ok s3 =>
              simp only [hres] at h
              exact stepsTo_trans (stepsTo_cloneOk s k e hk)
                (stepsTo_trans (ih nested (s.cloneOk k e) s3 (by rw [hres]; rfl))
                  (ih rest s3 s2 h))
            | fail s3 =>
              simp only [hres] at h
              simp [resultState] at h
              rw [← h]
              exact stepsTo_trans (stepsTo_cloneOk s k e hk)
                (ih nested (s.cloneOk k e) s3 (by rw [hres]; rfl))
            | outOfFuel =>
              simp only [hres] at h
              simp [resultState] at h

/-- After a run that completes normally, the directory of every key of the
dependency map exists. -/
theorem grabExtern_keys_installed (w : World) :
    ∀ (fuel : Nat) (deps : List (String × Extern)) (s s2 : FsState),
      grabExtern w fuel deps s = .ok s2 → ∀ k ∈ keysOf deps, k ∈ s2.installed := by
  intro fuel
  induction fuel with
  | zero =>
    intro deps s s2 h
    simp [grabExtern] at h
  | succ n ih =>
    intro deps s s2 h
    match deps with
    | [] => simp [keysOf]
    | (k, e) :: rest =>
      intro k1 hk1
      rcases List.mem_cons.mp hk1 with hk1 | hk1
      · subst hk1
        by_cases hk : k1 ∈ s.installed
        · rw [grabExtern, if_pos hk] at h
          exact stepsTo_installed_subset
            (grabExtern_stepsTo w n rest (s.skip k1) s2 (by rw [h]; rfl)) k1 hk
        · rw [grabExtern, if_neg hk] at h
          cases hc : w.clone e.git e.tag with
          | none => simp only [hc] at h; exact absurd h (by simp)
          | some mf =>
            have hmem : k1 ∈ (s.cloneOk k1 e).installed := by
              simp [FsState.cloneOk]
            cases mf with
            | none =>
              simp only [hc] at h
              exact stepsTo_installed_subset
                (grabExtern_stepsTo w n rest (s.cloneOk k1 e) s2 (by rw [h]; rfl)) k1 hmem
            | some nested =>
              simp only [hc] at h
              cases hres : grabExtern w n nested (s.cloneOk k1 e) with
              | ok s3 =>
                simp only [hres] at h
                have h3 : k1 ∈ s3.installed :=
                  stepsTo_installed_subset
                    (grabExtern_stepsTo w n nested (s.cloneOk k1 e) s3
                      (by rw [hres]; rfl)) k1 hmem
                exact stepsTo_installed_subset
                  (grabExtern_stepsTo w n rest s3 s2 (by rw [h]; rfl)) k1 h3
              | fail s3 => simp only [hres] at h; exact absurd h (by simp)
              | outOfFuel => simp only [hres] at h; exact absurd h (by simp)
      · by_cases hk : k ∈ s.installed
        · rw [grabExtern, if_pos hk] at h
          exact ih rest (s.skip k) s2 h k1 hk1
        · rw [grabExtern, if_neg hk] at h
          cases hc : w.clone e.git e.tag with
          | none => simp only [hc] at h; exact absurd h (by simp)
          | some mf =>
            cases mf with
            | none =>
              simp only [hc] at h
              exact ih rest (s.cloneOk k e) s2 h k1 hk1
            | some nested =>
              simp only [hc] at h
              cases hres : grabExtern w n nested (s.cloneOk k e) with
              | ok s3 =>
                simp only [hres] at h
                exact ih rest s3 s2 h k1 hk1
              | fail s3 => simp only [hres] at h; exact absurd h (by simp)
              | outOfFuel => simp only [hres] at h; exact absurd h (by simp)

/-- When the directory of every key of the map already exists, a run with
enough fuel only emits the Skipping report for each entry, in order, and
changes nothing on disk. -/
theorem grabExtern_all_installed (w : World) :
    ∀ (deps : List (String × Extern)) (s : FsState) (fuel : Nat),
      (∀ k ∈ keysOf deps, k ∈ s.installed) → deps.length < fuel →
      grabExtern w fuel deps s =
        .ok ⟨s.installed, s.events ++ deps.map (fun p => Event.skipped p.1)⟩ := by
  intro deps
  induction deps with
  | nil =>
    intro s fuel _ hfuel
    match fuel, hfuel with
    | n + 1, _ => simp [grabExtern]
  | cons p rest ih =>
    intro s fuel hall hfuel
    obtain ⟨k, e⟩ := p
    match fuel, hfuel with
    | n + 1, hf =>
      have hk : k ∈ s.installed := hall k (by simp [keysOf])
      rw [grabExtern, if_pos hk]
      have hrest : ∀ k1 ∈ keysOf rest, k1 ∈ (s.skip k).installed := by
        intro k1 hk1
        exact hall k1 (by simp [keysOf] at hk1 ⊢; exact Or.inr hk1)
      have hlen : rest.length < n := by
        simp only [List.length_cons] at hf
        omega
      rw [ih (s.skip k) n hrest hlen]
      simp [FsState.skip]

theorem filter_length_mono {α : Type} :
    ∀ (K : List α) (p q : α → Bool), (∀ x, p x = true → q x = true) →
      (K.filter p).length ≤ (K.filter q).length := by
  intro K p q himp
  induction K with
  | nil => simp
  | cons a t ih =>
    by_cases hp : p a = true
    · simp [List.filter_cons, hp, himp a hp]
      omega
    · have hp2 : p a = false := by simpa using hp
      by_cases hq : q a = true
      · simp [List.filter_cons, hp2, hq]
        omega
      · have hq2 : q a = false := by simpa using hq
        simpa [List.filter_cons, hp2, hq2] using ih

theorem filter_length_strict {α : Type} :
    ∀ (K : List α) (p q : α → Bool), (∀ x, p x = true → q x = true) →
      ∀ k, k ∈ K → p k = false → q k = true →
      (K.filter p).length < (K.filter q).length := by
  intro K p q himp k hk hpk hqk
  induction K with
  | nil => exact absurd hk (List.not_mem_nil k)
  | cons a t ih =>
    rcases List.mem_cons.mp hk with h | h
    · subst h
      simp [List.filter_cons, hpk, hqk]
      exact Nat.lt_succ_of_le (filter_length_mono t p q himp)
    · by_cases hp : p a = true
      · simp [List.filter_cons, hp, himp a hp]
        exact ih h
      · have hp2 : p a = false := by simpa using hp
        by_cases hq : q a = true
        · simp [List.filter_cons, hp2, hq]
          exact Nat.lt_succ_of_le (filter_length_mono t p q himp)
        · have hq2 : q a = false := by simpa using hq
          simpa [List.filter_cons, hp2, hq2] using ih h

theorem countNew_le_of_subset (K : List String) {s s2 : FsState}
    (h : ∀ x ∈ s.installed, x ∈ s2.installed) : countNew K s2 ≤ countNew K s := by
  refine filter_length_mono K _ _ ?_
  intro x hx
  simp only [decide_eq_true_eq] at hx ⊢
  exact fun hmem => hx (h x hmem)

theorem countNew_cloneOk_lt (K : List String) (s : FsState) (k : String) (e : Extern)
    (hkK : k ∈ K) (hk : k ∉ s.installed) : countNew K (s.cloneOk k e) < countNew K s := by
  refine filter_length_strict K _ _ ?_ k hkK ?_ ?_
  · intro x hx
    simp only [decide_eq_true_eq, FsState.cloneOk] at hx ⊢
    intro hmem
    exact hx (List.mem_append_left _ hmem)
  · simp [FsState.cloneOk]
  · simpa using hk

/-- Fuel monotonicity: a run that does not exhaust its fuel computes the
same result at any larger fuel. -/
theorem grabExtern_mono (w : World) :
    ∀ (fuel : Nat) (deps : List (String × Extern)) (s : FsState),
      grabExtern w fuel deps s ≠ .outOfFuel →
      ∀ m, fuel ≤ m → grabExtern w m deps s = grabExtern w fuel deps s := by
  intro fuel
  induction fuel with
  | zero =>
    intro deps s h
    exact absurd rfl h
  | succ n ih =>
    intro deps s h m hm
    match m, hm with
    | m1 + 1, hmm =>
      have hm1 : n ≤ m1 := Nat.le_of_succ_le_succ hmm
      match deps with
      | [] => rfl
      | (k, e) :: rest =>
        by_cases hk : k ∈ s.installed
        · rw [grabExtern, if_pos hk] at h ⊢
          rw [grabExtern, if_pos hk]
          exact ih rest (s.skip k) h m1 hm1
        · rw [grabExtern, if_neg hk] at h ⊢
          rw [grabExtern, if_neg hk]
          cases hc : w.clone e.git e.tag with
          | none => simp only [hc]
          | some mf =>
            cases mf with
            | none =>
              simp only [hc] at h ⊢
              exact ih rest (s.cloneOk k e) h m1 hm1
            | some nested =>
              simp only [hc] at h ⊢
              cases hres : grabExtern w n nested (s.cloneOk k e) with
              | ok s3 =>
                simp only [hres] at h
                have hnest : grabExtern w n nested (s.cloneOk k e) ≠ .outOfFuel := by
                  rw [hres]
                  exact fun hcon => FetchResult.noConfusion hcon
                rw [ih nested (s.cloneOk k e) hnest m1 hm1, hres]
                exact ih rest s3 h m1 hm1
              | fail s3 =>
                have hnest : grabExtern w n nested (s.cloneOk k e) ≠ .outOfFuel := by
                  rw [hres]
                  exact fun hcon => FetchResult.noConfusion hcon
                rw [ih nested (s.cloneOk k e) hnest m1 hm1, hres]
              | outOfFuel =>
                simp only [hres] at h
                exact absurd rfl h

/-- Existence of sufficient fuel: when the keys of the dependency map and of
every manifest the world can produce stay inside a finite key universe K,
some fuel completes the run. The bound decreases with the number of keys of
K not yet on disk, which strictly shrinks at every clone. -/
theorem grabExtern_term_aux (w : World) (K : List String)
    (hw : ∀ g t m, w.clone g t = some (some m) → ∀ k ∈ keysOf m, k ∈ K) :
    ∀ (N : Nat) (deps : List (String × Extern)) (s : FsState),
      (∀ k ∈ keysOf deps, k ∈ K) → countNew K s < N →
      ∃ fuel, grabExtern w fuel deps s ≠ .outOfFuel := by
  intro N
  induction N with
  | zero =>
    intro deps s _ hN
    exact absurd hN (Nat.not_lt_zero _)
  | succ n ihN =>
    intro deps
    induction deps with
    | nil =>
      intro s _ _
      refine ⟨1, ?_⟩
      rw [grabExtern]
      exact fun hcon => FetchResult.noConfusion hcon
    | cons p rest ihrest =>
      intro s hK hN
      obtain ⟨k, e⟩ := p
      have hKrest : ∀ k1 ∈ keysOf rest, k1 ∈ K := by
        intro k1 hk1
        exact hK k1 (by simp [keysOf] at hk1 ⊢; exact Or.inr hk1)
      by_cases hk : k ∈ s.installed
      · obtain ⟨f, hf⟩ := ihrest (s.skip k) hKrest hN
        refine ⟨f + 1, ?_⟩
        rw [grabExtern, if_pos hk]
        exact hf
      · have hkK : k ∈ K := hK k (by simp [keysOf])
        have hlt : countNew K (s.cloneOk k e) < countNew K s :=
          countNew_cloneOk_lt K s k e hkK hk
        have hlt2 : countNew K (s.cloneOk k e) < n := by omega
        cases hc : w.clone e.git e.tag with
        | none =>
          refine ⟨1, ?_⟩
          rw [grabExtern, if_neg hk]
          simp only [hc]
          exact fun hcon => FetchResult.noConfusion hcon
        | some mf =>
          cases mf with
          | none =>
            obtain ⟨f, hf⟩ := ihN rest (s.cloneOk k e) hKrest (by omega)
            refine ⟨f + 1, ?_⟩
            rw [grabExtern, if_neg hk]
            simp only [hc]
            exact hf
          | some nested =>
            have hKnested : ∀ k1 ∈ keysOf nested, k1 ∈ K := hw e.git e.tag nested hc
            obtain ⟨f1, hf1⟩ := ihN nested (s.cloneOk k e) hKnested hlt2
            cases hres : grabExtern w f1 nested (s.cloneOk k e) with
            | ok s3 =>
              have hsub := stepsTo_installed_subset
                (grabExtern_stepsTo w f1 nested (s.cloneOk k e) s3 (by rw [hres]; rfl))
              have hcount3 : countNew K s3 < n :=
                Nat.lt_of_le_of_lt (countNew_le_of_subset K hsub) hlt2
              obtain ⟨f2, hf2⟩ := ihN rest s3 hKrest hcount3
              refine ⟨max f1 f2 + 1, ?_⟩
              rw [grabExtern, if_neg hk]
              simp only [hc]
              rw [grabExtern_mono w f1 nested (s.cloneOk k e) (by rw [hres]; exact fun hcon => FetchResult.noConfusion hcon) (max f1 f2) (Nat.le_max_left f1 f2)]
              simp only [hres]
              rw [grabExtern_mono w f2 rest s3 hf2 (max f1 f2) (Nat.le_max_right f1 f2)]
              exact hf2
            | fail s3 =>
              refine ⟨f1 + 1, ?_⟩
              rw [grabExtern, if_neg hk]
              simp only [hc, hres]
              exact fun hcon => FetchResult.noConfusion hcon
            | outOfFuel => exact absurd hres hf1

/-- C2: materialization is depth first and pre-order. Generally: when a
fresh clone of an entry uncovers a nested manifest, the events of the
recursion into that manifest come right after the clone event and before
every event of the remaining siblings. In particular, for dependencies A
then B where the repository of A declares C, the materialization order is
A, then C, then B. -/
theorem grabExtern_depth_first :
    (∀ (w : World) (n : Nat) (k : String) (e : Extern)
      (rest nested : List (String × Extern)) (s s3 s4 : FsState),
      k ∉ s.installed →
      w.clone e.git e.tag = some (some nested) →
      grabExtern w n nested (s.cloneOk k e) = .ok s3 →
      grabExtern w n rest s3 = .ok s4 →
      grabExtern w (n + 1) ((k, e) :: rest) s = .ok s4 ∧
      ∃ esChild esSibs,
        s3.events = s.events ++ [Event.cloned k e.git e.tag] ++ esChild ∧
        s4.events = s.events ++ [Event.cloned k e.git e.tag] ++ esChild ++ esSibs) ∧
    grabExtern wABC 10 [("A", extA), ("B", extB)] ⟨[], []⟩ =
      .ok ⟨["A", "C", "B"],
        [Event.cloned "A" "gitA" "v1", Event.cloned "C" "gitC" "v3",
         Event.cloned "B" "gitB" "v2"]⟩ := by
  refine ⟨?_, by decide⟩
  intro w n k e rest nested s s3 s4 hk hc hnested hrest
  obtain ⟨esChild, heChild, -, -⟩ :=
    grabExtern_stepsTo w n nested (s.cloneOk k e) s3 (by rw [hnested]; rfl)
  obtain ⟨esSibs, heSibs, -, -⟩ :=
    grabExtern_stepsTo w n rest s3 s4 (by rw [hrest]; rfl)
  refine ⟨?_, esChild, esSibs, ?_, ?_⟩
  · rw [grabExtern, if_neg hk]
    simp only [hc, hnested]
    exact hrest
  · rw [heChild]
    simp [FsState.cloneOk]
  · rw [heSibs, heChild]
    simp [FsState.cloneOk]

/-- Witness for C2 on the concrete scenario: cloning A uncovers C, whose
events precede those of the sibling B. -/
theorem grabExtern_depth_first_witness :
    grabExtern wABC 10 [("A", extA), ("B", extB)] ⟨[], []⟩ =
      .ok ⟨["A", "C", "B"],
        [Event.cloned "A" "gitA" "v1", Event.cloned "C" "gitC" "v3",
         Event.cloned "B" "gitB" "v2"]⟩ ∧
    ∃ esChild esSibs,
      ([Event.cloned "A" "gitA" "v1", Event.cloned "C" "gitC" "v3"] : List Event) =
        [] ++ [Event.cloned "A" "gitA" "v1"] ++ esChild ∧
      ([Event.cloned "A" "gitA" "v1", Event.cloned "C" "gitC" "v3",
        Event.cloned "B" "gitB" "v2"] : List Event) =
        [] ++ [Event.cloned "A" "gitA" "v1"] ++ esChild ++ esSibs :=
  grabExtern_depth_first.1 wABC 9 "A" extA [("B", extB)] [("C", extC)]
    ⟨[], []⟩ ⟨["A", "C"], [Event.cloned "A" "gitA" "v1", Event.cloned "C" "gitC" "v3"]⟩
    ⟨["A", "C", "B"],
      [Event.cloned "A" "gitA" "v1", Event.cloned "C" "gitC" "v3",
       Event.cloned "B" "gitB" "v2"]⟩
    (by decide) (by decide) (by decide) (by decide)

/-- C3: fetcher idempotence. A first run from the empty external root that
completes normally installs the directory of every declared key, and the
set of directories it created is exactly the keys of its clone events; a
second run over the same map with enough fuel creates no directory,
performs no clone, and reports every entry as already installed. -/
theorem grabExtern_idempotent (w : World) (fuel fuel2 : Nat)
    (deps : List (String × Extern)) (s1 : FsState)
    (h : grabExtern w fuel deps ⟨[], []⟩ = .ok s1)
    (hfuel : deps.length < fuel2) :
    (∀ k ∈ keysOf deps, k ∈ s1.installed) ∧
    s1.installed = s1.events.filterMap clonedKey ∧
    grabExtern w fuel2 deps ⟨s1.installed, []⟩ =
      .ok ⟨s1.installed, deps.map (fun p => Event.skipped p.1)⟩ := by
  have hkeys := grabExtern_keys_installed w fuel deps ⟨[], []⟩ s1 h
  obtain ⟨es, he, hi, -⟩ :=
    grabExtern_stepsTo w fuel deps ⟨[], []⟩ s1 (by rw [h]; rfl)
  refine ⟨hkeys, ?_, ?_⟩
  · rw [hi, he]
    simp
  · have hrun := grabExtern_all_installed w deps ⟨s1.installed, []⟩ fuel2 hkeys hfuel
    simpa using hrun

/-- Witness for C3 on the concrete scenario world. -/
theorem grabExtern_idempotent_witness :
    (∀ k ∈ keysOf [("A", extA), ("B", extB)], k ∈ (["A", "C", "B"] : List String)) ∧
    (["A", "C", "B"] : List String) =
      ([Event.cloned "A" "gitA" "v1", Event.cloned "C" "gitC" "v3",
        Event.cloned "B" "gitB" "v2"].filterMap clonedKey) ∧
    grabExtern wABC 10 [("A", extA), ("B", extB)] ⟨["A", "C", "B"], []⟩ =
      .ok ⟨["A", "C", "B"], [Event.skipped "A", Event.skipped "B"]⟩ :=
  grabExtern_idempotent wABC 10 10 [("A", extA), ("B", extB)]
    ⟨["A", "C", "B"],
      [Event.cloned "A" "gitA" "v1", Event.cloned "C" "gitC" "v3",
       Event.cloned "B" "gitB" "v2"]⟩
    (by decide) (by decide)

/-- C4: shallow skip. An entry whose target directory already exists is
skipped entirely: the fetcher emits the already installed report, performs
no clone, does not recurse into the dependency, and continues with the
remaining siblings, whatever the world would answer for it. -/
theorem grabExtern_shallow_skip (w : World) (fuel : Nat) (k : String) (e : Extern)
    (rest : List (String × Extern)) (s : FsState) (h : k ∈ s.installed) :
    grabExtern w (fuel + 1) ((k, e) :: rest) s =
      grabExtern w fuel rest ⟨s.installed, s.events ++ [Event.skipped k]⟩ := by
  rw [grabExtern, if_pos h]
  rfl

/-- Witness for C4 at a concrete installed entry. -/
theorem grabExtern_shallow_skip_witness :
    grabExtern wABC 2 [("A", extA)] ⟨["A"], []⟩ =
      grabExtern wABC 1 [] ⟨["A"], [Event.skipped "A"]⟩ :=
  grabExtern_shallow_skip wABC 1 "A" extA [] ⟨["A"], []⟩ (by decide)

/-- C5: abort on failure. On the concrete scenario of three declared
dependencies where cloning the second fails, the run reports failure, the
first dependency remains installed, and no event mentions the third. -/
theorem grabExtern_abort_on_failure :
    grabExtern wFailB 10 [("A", extA), ("B", extB), ("C", extC)] ⟨[], []⟩ =
      .fail ⟨["A"], [Event.cloned "A" "gitA" "v1", Event.cloneFailed "B"]⟩ := by
  decide

/-- C8: termination. When the keys of the dependency map and of every
manifest the world can produce stay inside a finite key universe, some fuel
completes the run, even on cyclic dependency data, because each recursion
follows a clone that creates a new directory and installed keys are skipped
on every later encounter. -/
theorem grabExtern_terminates (w : World) (K : List String)
    (deps : List (String × Extern)) (s : FsState)
    (hK : ∀ k ∈ keysOf deps, k ∈ K)
    (hw : ∀ g t m, w.clone g t = some (some m) → ∀ k ∈ keysOf m, k ∈ K) :
    ∃ fuel, grabExtern w fuel deps s ≠ .outOfFuel :=
  grabExtern_term_aux w K hw (countNew K s + 1) deps s hK (Nat.lt_succ_self _)

/-- Witness for C8 on the cyclic world where A declares B and B declares A
again. -/
theorem grabExtern_terminates_witness :
    ∃ fuel, grabExtern wCyc fuel [("A", extA)] ⟨[], []⟩ ≠ .outOfFuel :=
  grabExtern_terminates wCyc ["A", "B"] [("A", extA)] ⟨[], []⟩ (by decide)
    (by
      intro g t m hm k hk
      simp only [wCyc] at hm
      split_ifs at hm with h1 h2
      · have hmb : m = [("B", extB)] := by simpa using hm.symm
        subst hmb
        simp [keysOf] at hk
        simp [hk]
      · have hma : m = [("A", extA)] := by simpa using hm.symm
        subst hma
        simp [keysOf] at hk
        simp [hk]
      · simp at hm)

/-- C9: frame property. A completed run, normal or aborted, only appends to
the event log, grows the directory set by exactly the keys of its new clone
events, never removes a directory (every directory present before is
present after), and preserves freedom from duplicates. -/
theorem grabExtern_frame (w : World) (fuel : Nat) (deps : List (String × Extern))
    (s s2 : FsState) (h : resultState (grabExtern w fuel deps s) = some s2) :
    (∀ k ∈ s.installed, k ∈ s2.installed) ∧
    ∃ es, s2.events = s.events ++ es ∧
      s2.installed = s.installed ++ es.filterMap clonedKey ∧
      (s.installed.Nodup → s2.installed.Nodup) := by
  have hst := grabExtern_stepsTo w fuel deps s s2 h
  exact ⟨stepsTo_installed_subset hst, hst⟩

/-- Witness for C9: a run starting with an unrelated directory Z keeps it. -/
theorem grabExtern_frame_witness :
    (∀ k ∈ (["Z"] : List String), k ∈ (["Z", "A", "C"] : List String)) ∧
    ∃ es, ([Event.cloned "A" "gitA" "v1", Event.cloned "C" "gitC" "v3"] : List Event) =
        [] ++ es ∧
      (["Z", "A", "C"] : List String) = ["Z"] ++ es.filterMap clonedKey ∧
      ((["Z"] : List String).Nodup → (["Z", "A", "C"] : List String).Nodup) :=
  grabExtern_frame wABC 10 [("A", extA)] ⟨["Z"], []⟩
    ⟨["Z", "A", "C"], [Event.cloned "A" "gitA" "v1", Event.cloned "C" "gitC" "v3"]⟩
    (by decide)

/-- C10: the skip decision consults only the key and the directory set; for
an already installed key the pinned tag and the remote of the entry are
never read, so changing them leaves the whole run unchanged. -/
theorem grabExtern_skip_independent (w : World) (fuel : Nat) (k : String)
    (e1 e2 : Extern) (rest : List (String × Extern)) (s : FsState)
    (h : k ∈ s.installed) :
    grabExtern w fuel ((k, e1) :: rest) s = grabExtern w fuel ((k, e2) :: rest) s := by
  cases fuel with
  | zero => rfl
  | succ n => rw [grabExtern, if_pos h, grabExtern, if_pos h]

/-- Witness for C10: changing both the remote and the tag of an installed
entry gives the identical run. -/
theorem grabExtern_skip_independent_witness :
    grabExtern wABC 5 [("B", extB)] ⟨["B"], []⟩ =
      grabExtern wABC 5 [("B", Extern.mk "gitB2" "v9")] ⟨["B"], []⟩ :=
  grabExtern_skip_independent wABC 5 "B" extB (Extern.mk "gitB2" "v9") []
    ⟨["B"], []⟩ (by decide)

end Cutekit
